import Mathlib

/-!
Verification of the Shannon-Fano coder (src/main.cpp).

Shallow embedding conventions:
* a symbol (C++ `char`) is a `Nat`; the C++ `map<char, ...>` iterates its keys in
  ascending key order, modelled by sorting the distinct symbols ascending;
* the C++ `float` probabilities are embedded as exact rationals `ℚ`;
* the codeword map `map<char, string> codes` is a function `Nat → List Bool`
  (`false` = '0', `true` = '1');
* `qsort` with `pnode_compare` (decreasing probability, ties unspecified) is
  embedded as an insertion sort with the same comparator;
* the recursive procedure `Coder::EncShannon` is not structurally terminating
  (and genuinely diverges on some inputs), so it is embedded with an explicit
  fuel parameter; `none` models non-termination within the given fuel.
-/

namespace ShannonFano

/-- The `pnode` record of the source: a symbol and its probability. -/
structure PNode where
  ch : Nat
  p : ℚ
deriving DecidableEq

/-- Array access `ptable[i]` (the source indexes `ptable` with a C `int`;
reachable calls stay in bounds, out-of-range reads return a junk node). -/
def ptab (t : List PNode) (i : Int) : PNode := t.getD i.toNat ⟨0, 0⟩

/-- The statement `codes[c] += bit` of the source: append one bit to the
codeword of symbol `c`. -/
def appendBit (codes : Nat → List Bool) (c : Nat) (b : Bool) : Nat → List Bool :=
  fun s => if s = c then codes s ++ [b] else codes s

/-- The `pfull` accumulation loop of `EncShannon`: sum of the probabilities of
`n` consecutive table entries starting at index `i`. -/
def sumRange (t : List PNode) : Nat → Int → ℚ
  | 0, _ => 0
  | n + 1, i => (ptab t i).p + sumRange t n (i + 1)

/-- The centre-searching loop of `EncShannon`: starting at index `i` with `n`
iterations left, running sum `p`, split index `isp` (−1 while unset) and the
current codeword table.  Returns the final `(p, isp, codes)`. -/
def scanLoop (t : List PNode) (phalf : ℚ) :
    Nat → Int → ℚ → Int → (Nat → List Bool) → ℚ × Int × (Nat → List Bool)
  | 0, _, p, isp, codes => (p, isp, codes)
  | n + 1, i, p, isp, codes =>
    let p2 := p + (ptab t i).p
    if p2 ≤ phalf then
      scanLoop t phalf n (i + 1) p2 isp (appendBit codes (ptab t i).ch false)
    else
      scanLoop t phalf n (i + 1) p2 (if isp < 0 then i else isp)
        (appendBit codes (ptab t i).ch true)

/-- `Coder::EncShannon(li, ri)`, fuelled.  `none` means the recursion did not
finish within `fuel` calls (the source function has no other failure mode). -/
def encShannon (t : List PNode) : Nat → Int → Int → (Nat → List Bool) → Option (Nat → List Bool)
  | 0, _, _, _ => none
  | fuel + 1, li, ri, codes =>
    if li = ri then some codes
    else if ri - li = 1 then
      some (appendBit (appendBit codes (ptab t li).ch false) (ptab t ri).ch true)
    else
      let st := scanLoop t (sumRange t (ri + 1 - li).toNat li / 2) (ri + 1 - li).toNat li 0 (-1) codes
      let isp := if st.2.1 < 0 then li + 1 else st.2.1
      match encShannon t fuel li (isp - 1) st.2.2 with
      | none => none
      | some c2 => encShannon t fuel isp ri c2

/-- The comparator `pnode_compare` orders by decreasing probability. -/
def pgeProb (a b : PNode) : Prop := b.p ≤ a.p

instance : DecidableRel pgeProb := fun a b => inferInstanceAs (Decidable (b.p ≤ a.p))

instance : IsTotal PNode pgeProb := ⟨fun a b => le_total b.p a.p⟩

instance : IsTrans PNode pgeProb := ⟨fun _ _ _ h1 h2 => le_trans h2 h1⟩

/-- The key set of the frequency map `freqs`: the distinct symbols of the
input, in ascending order (the iteration order of the C++ `map`). -/
def sortedKeys (S : List Nat) : List Nat := List.insertionSort (· ≤ ·) S.dedup

/-- Building `ptable`: probability `count/total` per distinct symbol, then the
`qsort` by decreasing probability. -/
def buildPTable (S : List Nat) : List PNode :=
  List.insertionSort pgeProb
    ((sortedKeys S).map fun c => ⟨c, (S.count c : ℚ) / (S.length : ℚ)⟩)

/-- The persisted artifact: one row `(symbol, probability, codeword)` per table
entry, then the bitstream. -/
structure Artifact where
  rows : List (Nat × ℚ × List Bool)
  bits : List Bool
deriving DecidableEq

/-- `Coder::Encode`: count, build and sort the probability table, run
`EncShannon(0, tsize-1)`, then emit the table rows and the concatenation of the
codewords of the input symbols.  `none` models the non-terminating recursion
(in which case the source program never reaches its output phase). -/
def Encode (fuel : Nat) (S : List Nat) : Option Artifact :=
  let t := buildPTable S
  match encShannon t fuel 0 ((t.length : Int) - 1) (fun _ => []) with
  | none => none
  | some codes => some ⟨t.map fun n => (n.ch, n.p, codes n.ch), (S.map fun c => codes c).flatten⟩

/-- The inner loop of `Coder::Decode`: one freshly read bit has just been
appended to the accumulator; scan the whole code table in order, and on every
exact match emit the symbol and clear the accumulator. -/
def decodeStep (codes : List (Nat × List Bool)) (accum : List Bool) : List Nat × List Bool :=
  codes.foldl (fun st e => if e.2 = st.2 then (st.1 ++ [e.1], []) else st) ([], accum)

/-- The outer loop of `Coder::Decode`: read the bitstream one bit at a time,
keeping the accumulator across bits; returns the emitted symbols and the final
(possibly non-empty) accumulator, which the source silently discards. -/
def decodeAcc (codes : List (Nat × List Bool)) : List Bool → List Bool → List Nat × List Bool
  | accum, [] => ([], accum)
  | accum, b :: rest =>
    let r1 := decodeStep codes (accum ++ [b])
    let r2 := decodeAcc codes r1.2 rest
    (r1.1 ++ r2.1, r2.2)

/-- Rebuilding the `codes` map from the artifact rows: a later row with the
same symbol overwrites an earlier one (C++ `codes[ch] = code`). -/
def dedupKeys : List (Nat × List Bool) → List (Nat × List Bool)
  | [] => []
  | e :: rest => if (rest.map Prod.fst).contains e.1 then dedupKeys rest else e :: dedupKeys rest

/-- Ordering of the decoder's `map<char, string>`: ascending symbol. -/
def keyLE (e f : Nat × List Bool) : Prop := e.1 ≤ f.1

instance : DecidableRel keyLE := fun e f => inferInstanceAs (Decidable (e.1 ≤ f.1))

instance : IsTotal (Nat × List Bool) keyLE := ⟨fun e f => le_total e.1 f.1⟩

instance : IsTrans (Nat × List Bool) keyLE := ⟨fun _ _ _ h1 h2 => le_trans h1 h2⟩

/-- The decoder's code table: the artifact rows keyed by symbol, later
duplicates winning, iterated in ascending symbol order. -/
def codeTableOf (a : Artifact) : List (Nat × List Bool) :=
  List.insertionSort keyLE (dedupKeys (a.rows.map fun r => (r.1, r.2.2)))

/-- `Coder::Decode` restricted to its observable output: the emitted symbol
sequence (the leftover accumulator is dropped by the source). -/
def Decode (a : Artifact) : List Nat := (decodeAcc (codeTableOf a) [] a.bits).1

/-- Codeword of a symbol in a code table (first entry with that key). -/
def cwOf : List (Nat × List Bool) → Nat → List Bool
  | [], _ => []
  | e :: rest, s => if e.1 = s then e.2 else cwOf rest s

/-- Modelled from the spec (§4.3): the running sum of probabilities from `lo`
through `k` inclusive. -/
def runSum (t : List PNode) (lo k : Int) : ℚ := sumRange t (k + 1 - lo).toNat lo

/-- Modelled from the spec (§4.3): the bit an element receives — '0' while the
running sum including it is at most half the range total, '1' otherwise. -/
def specBit (t : List PNode) (lo hi k : Int) : Bool :=
  if runSum t lo k ≤ runSum t lo hi / 2 then false else true

/-- Modelled from the spec (§4.3): append to each element of the range the bit
given by the running-sum rule, left to right. -/
def specAssign (t : List PNode) (lo hi : Int) : Nat → Int → (Nat → List Bool) → (Nat → List Bool)
  | 0, _, codes => codes
  | n + 1, i, codes => specAssign t lo hi n (i + 1) (appendBit codes (ptab t i).ch (specBit t lo hi i))

/-- Modelled from the spec (§4.3): the first index of the range whose bit is
'1', or −1 when every running sum stayed at or below half. -/
def firstOne (t : List PNode) (lo hi : Int) : Nat → Int → Int
  | 0, _ => -1
  | n + 1, i => if specBit t lo hi i then i else firstOne t lo hi n (i + 1)

/-- Modelled from the spec (§4.3): the split point — the first '1' index, with
fallback `lo + 1` when the accumulation never exceeded half. -/
def specSplit (t : List PNode) (lo hi : Int) : Int :=
  if firstOne t lo hi (hi + 1 - lo).toNat lo < 0 then lo + 1
  else firstOne t lo hi (hi + 1 - lo).toNat lo

/-! Basic helper lemmas. -/

theorem appendBit_self (codes : Nat → List Bool) (c : Nat) (b : Bool) :
    appendBit codes c b c = codes c ++ [b] := by
  simp [appendBit]

theorem appendBit_ne (codes : Nat → List Bool) (c : Nat) (b : Bool) {s : Nat} (h : s ≠ c) :
    appendBit codes c b s = codes s := by
  simp [appendBit, h]

theorem not_pre_of_diverge (w : List Bool) {b b' : Bool} (hb : b ≠ b') (xs ys : List Bool) :
    ¬ (w ++ b :: xs <+: w ++ b' :: ys) := by
  intro h
  obtain ⟨z, hz⟩ := h
  rw [List.append_assoc] at hz
  have h2 : b :: (xs ++ z) = b' :: ys := by
    have h3 := List.append_cancel_left hz
    simpa using h3
  exact hb (by injection h2)

theorem sumRange_succ_back (t : List PNode) (n : Nat) (i : Int) :
    sumRange t (n + 1) i = sumRange t n i + (ptab t (i + n)).p := by
  induction n generalizing i with
  | zero => simp [sumRange]
  | succ m ih =>
    rw [show m + 1 + 1 = (m + 1) + 1 from rfl, sumRange]
    rw [ih (i + 1), sumRange]
    push_cast
    ring_nf

theorem sumRange_pos (t : List PNode) (n : Nat) (i : Int)
    (hpos : ∀ k : Int, i ≤ k → k < i + n → 0 < (ptab t k).p) (hn : 0 < n) :
    0 < sumRange t n i := by
  induction n generalizing i with
  | zero => omega
  | succ m ih =>
    rw [sumRange]
    rcases Nat.eq_zero_or_pos m with hm | hm
    · subst hm
      have h0 := hpos i le_rfl (by push_cast; omega)
      simpa [sumRange] using h0
    · have h0 := hpos i le_rfl (by push_cast; omega)
      have h1 : 0 < sumRange t m (i + 1) := by
        apply ih (i + 1) (fun k hk1 hk2 => hpos k (by omega) (by push_cast at hk2 ⊢; omega)) hm
      linarith

theorem sumRange_nonneg (t : List PNode) (n : Nat) (i : Int)
    (hpos : ∀ k : Int, i ≤ k → k < i + n → 0 ≤ (ptab t k).p) :
    0 ≤ sumRange t n i := by
  induction n generalizing i with
  | zero => simp [sumRange]
  | succ m ih =>
    rw [sumRange]
    have h0 := hpos i le_rfl (by push_cast; omega)
    have h1 : 0 ≤ sumRange t m (i + 1) :=
      ih (i + 1) (fun k hk1 hk2 => hpos k (by omega) (by push_cast at hk2 ⊢; omega))
    linarith

/-! Characterisation of the centre-searching loop. -/

/-- After the split index is set (`0 ≤ isp`) and the running sum has passed
half (`phalf < p`), the rest of the scan appends '1' everywhere, keeps `isp`,
and accumulates the remaining probabilities. -/
theorem scanLoop_after (t : List PNode) (phalf : ℚ) (n : Nat) :
    ∀ (i : Int) (p : ℚ) (isp : Int) (codes : Nat → List Bool),
      0 ≤ isp → phalf < p →
      (∀ k : Int, i ≤ k → k < i + n → 0 ≤ (ptab t k).p) →
      (scanLoop t phalf n i p isp codes).1 = p + sumRange t n i ∧
      (scanLoop t phalf n i p isp codes).2.1 = isp ∧
      (∀ s : Nat, (∀ k : Int, i ≤ k → k < i + n → s ≠ (ptab t k).ch) →
        (scanLoop t phalf n i p isp codes).2.2 s = codes s) ∧
      ((∀ k l : Int, i ≤ k → k < i + n → i ≤ l → l < i + n → k ≠ l →
          (ptab t k).ch ≠ (ptab t l).ch) →
        ∀ k : Int, i ≤ k → k < i + n →
          (scanLoop t phalf n i p isp codes).2.2 (ptab t k).ch
            = codes (ptab t k).ch ++ [true]) := by
  induction n with
  | zero =>
    intro i p isp codes hisp hp _
    refine ⟨by simp [scanLoop, sumRange], by simp [scanLoop], ?_, ?_⟩
    · intro s _; simp [scanLoop]
    · intro _ k hk1 hk2
      exfalso; push_cast at hk2; omega
  | succ m ih =>
    intro i p isp codes hisp hp hpos
    have hpi : 0 ≤ (ptab t i).p := hpos i le_rfl (by push_cast; omega)
    have hcond : ¬ (p + (ptab t i).p ≤ phalf) := by linarith
    have hstep : scanLoop t phalf (m + 1) i p isp codes
        = scanLoop t phalf m (i + 1) (p + (ptab t i).p) isp
            (appendBit codes (ptab t i).ch true) := by
      rw [scanLoop]
      simp only [hcond, if_false, if_neg (by omega : ¬ isp < 0)]
    have hpos' : ∀ k : Int, i + 1 ≤ k → k < (i + 1) + m → 0 ≤ (ptab t k).p := by
      intro k hk1 hk2
      exact hpos k (by omega) (by push_cast at hk2 ⊢; omega)
    obtain ⟨ha, hb, hc, hd⟩ := ih (i + 1) (p + (ptab t i).p) isp
      (appendBit codes (ptab t i).ch true) hisp (by linarith) hpos'
    rw [hstep]
    refine ⟨?_, hb, ?_, ?_⟩
    · rw [ha, sumRange]; ring
    · intro s hs
      rw [hc s (fun k hk1 hk2 => hs k (by omega) (by push_cast at hk2 ⊢; omega))]
      exact appendBit_ne _ _ _ (hs i le_rfl (by push_cast; omega))
    · intro hdist k hk1 hk2
      have hm1 : ((m + 1 : Nat) : Int) = (m : Int) + 1 := by push_cast; ring
      rw [hm1] at hk2
      have hdist' : ∀ a b : Int, i + 1 ≤ a → a < (i + 1) + (m : Int) → i + 1 ≤ b →
          b < (i + 1) + (m : Int) → a ≠ b → (ptab t a).ch ≠ (ptab t b).ch := by
        intro a b ha1 ha2 hb1 hb2 hab
        exact hdist a b (by omega) (by rw [hm1]; omega) (by omega) (by rw [hm1]; omega) hab
      rcases eq_or_lt_of_le hk1 with hk | hk
      · have hfresh : ∀ l : Int, i + 1 ≤ l → l < (i + 1) + (m : Int) →
            (ptab t i).ch ≠ (ptab t l).ch := by
          intro l hl1 hl2
          exact hdist i l le_rfl (by rw [hm1]; omega) (by omega) (by rw [hm1]; omega) (by omega)
        rw [← hk]
        rw [hc _ (fun l hl1 hl2 => hfresh l hl1 hl2)]
        exact appendBit_self _ _ _
      · have hne : (ptab t k).ch ≠ (ptab t i).ch :=
          hdist k i hk1 (by rw [hm1]; omega) le_rfl (by rw [hm1]; omega) (by omega)
        rw [hd hdist' k (by omega) (by omega), appendBit_ne _ _ _ hne]

theorem scanLoop_step_le {t : List PNode} {phalf : ℚ} {n : Nat} {i : Int} {p : ℚ} {isp : Int}
    {codes : Nat → List Bool} (h : p + (ptab t i).p ≤ phalf) :
    scanLoop t phalf (n + 1) i p isp codes
      = scanLoop t phalf n (i + 1) (p + (ptab t i).p) isp
          (appendBit codes (ptab t i).ch false) := by
  rw [scanLoop]
  simp only [if_pos h]

theorem scanLoop_step_gt {t : List PNode} {phalf : ℚ} {n : Nat} {i : Int} {p : ℚ} {isp : Int}
    {codes : Nat → List Bool} (h : ¬ (p + (ptab t i).p ≤ phalf)) :
    scanLoop t phalf (n + 1) i p isp codes
      = scanLoop t phalf n (i + 1) (p + (ptab t i).p) (if isp < 0 then i else isp)
          (appendBit codes (ptab t i).ch true) := by
  rw [scanLoop]
  simp only [if_neg h]

/-- The scan before any element has pushed the running sum past half: the
result either still has `isp = -1` with every element marked '0' and a final
sum at most half, or `isp` is the first index marked '1', everything before it
marked '0' and everything from it on marked '1'. -/
theorem scanLoop_before (t : List PNode) (phalf : ℚ) (n : Nat) :
    ∀ (i : Int) (p : ℚ) (codes : Nat → List Bool),
      0 ≤ i → p ≤ phalf →
      (∀ k : Int, i ≤ k → k < i + n → 0 ≤ (ptab t k).p) →
      (∀ k l : Int, i ≤ k → k < i + n → i ≤ l → l < i + n → k ≠ l →
          (ptab t k).ch ≠ (ptab t l).ch) →
      (scanLoop t phalf n i p (-1) codes).1 = p + sumRange t n i ∧
      (∀ s : Nat, (∀ k : Int, i ≤ k → k < i + n → s ≠ (ptab t k).ch) →
        (scanLoop t phalf n i p (-1) codes).2.2 s = codes s) ∧
      (((scanLoop t phalf n i p (-1) codes).2.1 = -1 ∧
          (scanLoop t phalf n i p (-1) codes).1 ≤ phalf ∧
          (∀ k : Int, i ≤ k → k < i + n →
            (scanLoop t phalf n i p (-1) codes).2.2 (ptab t k).ch
              = codes (ptab t k).ch ++ [false])) ∨
        (i ≤ (scanLoop t phalf n i p (-1) codes).2.1 ∧
          (scanLoop t phalf n i p (-1) codes).2.1 < i + n ∧
          (∀ k : Int, i ≤ k → k < (scanLoop t phalf n i p (-1) codes).2.1 →
            (scanLoop t phalf n i p (-1) codes).2.2 (ptab t k).ch
              = codes (ptab t k).ch ++ [false]) ∧
          (∀ k : Int, (scanLoop t phalf n i p (-1) codes).2.1 ≤ k → k < i + n →
            (scanLoop t phalf n i p (-1) codes).2.2 (ptab t k).ch
              = codes (ptab t k).ch ++ [true]))) := by
  induction n with
  | zero =>
    intro i p codes hi hp _ _
    refine ⟨by simp [scanLoop, sumRange], fun s _ => by simp [scanLoop], Or.inl ?_⟩
    refine ⟨by simp [scanLoop], by simpa [scanLoop] using hp, ?_⟩
    intro k hk1 hk2
    exfalso; push_cast at hk2; omega
  | succ m ih =>
    intro i p codes hi hp hpos hdist
    have hm1 : ((m + 1 : Nat) : Int) = (m : Int) + 1 := by push_cast; ring
    have hpos' : ∀ k : Int, i + 1 ≤ k → k < (i + 1) + (m : Int) → 0 ≤ (ptab t k).p := by
      intro k hk1 hk2
      exact hpos k (by omega) (by rw [hm1]; omega)
    have hdist' : ∀ a b : Int, i + 1 ≤ a → a < (i + 1) + (m : Int) → i + 1 ≤ b →
        b < (i + 1) + (m : Int) → a ≠ b → (ptab t a).ch ≠ (ptab t b).ch := by
      intro a b ha1 ha2 hb1 hb2 hab
      exact hdist a b (by omega) (by rw [hm1]; omega) (by omega) (by rw [hm1]; omega) hab
    have hfresh : ∀ l : Int, i + 1 ≤ l → l < (i + 1) + (m : Int) →
        (ptab t i).ch ≠ (ptab t l).ch := by
      intro l hl1 hl2
      exact hdist i l le_rfl (by rw [hm1]; omega) (by omega) (by rw [hm1]; omega) (by omega)
    by_cases hstep : p + (ptab t i).p ≤ phalf
    · rw [scanLoop_step_le hstep]
      obtain ⟨ha, hframe, hdisj⟩ := ih (i + 1) (p + (ptab t i).p)
        (appendBit codes (ptab t i).ch false) (by omega) hstep hpos' hdist'
      refine ⟨by rw [ha, sumRange]; ring, ?_, ?_⟩
      · intro s hs
        rw [hframe s (fun k hk1 hk2 => hs k (by omega) (by rw [hm1]; omega))]
        exact appendBit_ne _ _ _ (hs i le_rfl (by rw [hm1]; omega))
      · have hbit_i :
            (scanLoop t phalf m (i + 1) (p + (ptab t i).p) (-1)
                (appendBit codes (ptab t i).ch false)).2.2 (ptab t i).ch
              = codes (ptab t i).ch ++ [false] := by
          rw [hframe _ (fun l hl1 hl2 => hfresh l hl1 hl2)]
          exact appendBit_self _ _ _
        rcases hdisj with ⟨h1, h2, h3⟩ | ⟨h1, h2, h3, h4⟩
        · left
          refine ⟨h1, h2, ?_⟩
          intro k hk1 hk2
          rcases eq_or_lt_of_le hk1 with hk | hk
          · rw [← hk]; exact hbit_i
          · rw [h3 k (by omega) (by rw [hm1] at hk2; omega)]
            rw [appendBit_ne _ _ _ (hdist k i (by omega) hk2 le_rfl (by rw [hm1]; omega) (by omega))]
        · right
          refine ⟨by omega, by rw [hm1]; omega, ?_, ?_⟩
          · intro k hk1 hk2
            rcases eq_or_lt_of_le hk1 with hk | hk
            · rw [← hk]; exact hbit_i
            · rw [h3 k (by omega) hk2]
              rw [appendBit_ne _ _ _ (hdist k i (by omega) (by rw [hm1]; omega) le_rfl
                (by rw [hm1]; omega) (by omega))]
          · intro k hk1 hk2
            rw [h4 k hk1 (by rw [hm1] at hk2; omega)]
            rw [appendBit_ne _ _ _ (hdist k i (by omega) (by rw [hm1]; omega) le_rfl
              (by rw [hm1]; omega) (by omega))]
    · rw [scanLoop_step_gt hstep]
      rw [if_pos (by omega : (-1 : Int) < 0)]
      obtain ⟨ha, hb, hc, hd⟩ := scanLoop_after t phalf m (i + 1) (p + (ptab t i).p) i
        (appendBit codes (ptab t i).ch true) hi (by linarith [not_le.mp hstep]) hpos'
      refine ⟨by rw [ha, sumRange]; ring, ?_, Or.inr ?_⟩
      · intro s hs
        rw [hc s (fun k hk1 hk2 => hs k (by omega) (by rw [hm1]; omega))]
        exact appendBit_ne _ _ _ (hs i le_rfl (by rw [hm1]; omega))
      · rw [hb]
        refine ⟨le_rfl, by rw [hm1]; omega, ?_, ?_⟩
        · intro k hk1 hk2
          exfalso; omega
        · intro k hk1 hk2
          rcases eq_or_lt_of_le hk1 with hk | hk
          · rw [← hk]
            rw [hc _ (fun l hl1 hl2 => hfresh l hl1 hl2)]
            exact appendBit_self _ _ _
          · rw [hd hdist' k (by omega) (by rw [hm1] at hk2; omega)]
            rw [appendBit_ne _ _ _ (hdist k i (by omega) (by rw [hm1]; omega) le_rfl
              (by rw [hm1]; omega) (by omega))]

/-! Unfolding lemmas for `encShannon`. -/

theorem encShannon_base1 {t : List PNode} {fuel : Nat} {li : Int} {codes : Nat → List Bool} :
    encShannon t (fuel + 1) li li codes = some codes := by
  rw [encShannon]
  simp

theorem encShannon_base2 {t : List PNode} {fuel : Nat} {li ri : Int} {codes : Nat → List Bool}
    (h : ri - li = 1) :
    encShannon t (fuel + 1) li ri codes
      = some (appendBit (appendBit codes (ptab t li).ch false) (ptab t ri).ch true) := by
  rw [encShannon]
  rw [if_neg (by omega : ¬ li = ri), if_pos h]

theorem encShannon_general {t : List PNode} {fuel : Nat} {li ri : Int} {codes : Nat → List Bool}
    (h1 : ¬ li = ri) (h2 : ¬ ri - li = 1) :
    encShannon t (fuel + 1) li ri codes
      = (match encShannon t fuel li
            ((if (scanLoop t (sumRange t (ri + 1 - li).toNat li / 2) (ri + 1 - li).toNat li 0
                (-1) codes).2.1 < 0 then li + 1
              else (scanLoop t (sumRange t (ri + 1 - li).toNat li / 2) (ri + 1 - li).toNat li 0
                (-1) codes).2.1) - 1)
            (scanLoop t (sumRange t (ri + 1 - li).toNat li / 2) (ri + 1 - li).toNat li 0
              (-1) codes).2.2 with
         | none => none
         | some c2 =>
            encShannon t fuel
              (if (scanLoop t (sumRange t (ri + 1 - li).toNat li / 2) (ri + 1 - li).toNat li 0
                  (-1) codes).2.1 < 0 then li + 1
                else (scanLoop t (sumRange t (ri + 1 - li).toNat li / 2) (ri + 1 - li).toNat li 0
                  (-1) codes).2.1) ri c2) := by
  rw [encShannon]
  rw [if_neg h1, if_neg h2]

/-- A call on a reversed range (`ri < li`) never returns: it walks
`(li, ri) → (li+1, ri) → …` forever, so every fuel value is exhausted.
This is the divergence that the missing left-partition guard lets through. -/
theorem encShannon_neg (t : List PNode) :
    ∀ (fuel : Nat) (li ri : Int) (codes : Nat → List Bool), ri < li →
      encShannon t fuel li ri codes = none := by
  intro fuel
  induction fuel with
  | zero => intro li ri codes _; rfl
  | succ m ih =>
    intro li ri codes h
    rw [encShannon_general (by omega) (by omega)]
    have hn : (ri + 1 - li).toNat = 0 := by omega
    rw [hn]
    simp only [scanLoop]
    rw [if_pos (by omega : (-1 : Int) < 0)]
    have h1 : li + 1 - 1 = li := by omega
    rw [h1]
    cases m with
    | zero => rfl
    | succ k =>
      rw [encShannon_base1]
      exact ih (li + 1) ri codes (by omega)

/-- Main structural lemma about terminating `EncShannon` calls on a range
`[li, ri]` of positive-probability, pairwise-distinct-symbol entries:
(a) symbols outside the range keep their codewords;
(b) a single-element call changes nothing;
(c) on a multi-element range every in-range symbol's codeword is properly
    extended; and
(d) if all in-range symbols start with the same codeword, afterwards no
    in-range symbol's codeword is a prefix of another's. -/
theorem encShannon_main (t : List PNode) :
    ∀ (fuel : Nat) (li ri : Int) (codes codes' : Nat → List Bool),
      encShannon t fuel li ri codes = some codes' →
      0 ≤ li → li ≤ ri →
      (∀ k : Int, li ≤ k → k ≤ ri → 0 < (ptab t k).p) →
      (∀ k l : Int, li ≤ k → k ≤ ri → li ≤ l → l ≤ ri → k ≠ l →
        (ptab t k).ch ≠ (ptab t l).ch) →
      ((∀ s : Nat, (∀ k : Int, li ≤ k → k ≤ ri → s ≠ (ptab t k).ch) → codes' s = codes s) ∧
        (li = ri → ∀ s, codes' s = codes s) ∧
        (li < ri → ∀ k : Int, li ≤ k → k ≤ ri → ∃ u, u ≠ [] ∧
          codes' (ptab t k).ch = codes (ptab t k).ch ++ u) ∧
        ((∀ k l : Int, li ≤ k → k ≤ ri → li ≤ l → l ≤ ri →
            codes (ptab t k).ch = codes (ptab t l).ch) →
          ∀ k l : Int, li ≤ k → k ≤ ri → li ≤ l → l ≤ ri →
            (ptab t k).ch ≠ (ptab t l).ch →
            ¬ (codes' (ptab t k).ch <+: codes' (ptab t l).ch))) := by
  intro fuel
  induction fuel with
  | zero => intro li ri codes codes' hsome; exact absurd hsome (by simp [encShannon])
  | succ m ih =>
    intro li ri codes codes' hsome hli hlr hpos hdist
    rcases eq_or_lt_of_le hlr with heq | hlt
    · -- single element: the call returns immediately
      subst heq
      rw [encShannon_base1] at hsome
      obtain rfl : codes = codes' := Option.some.inj hsome
      refine ⟨fun s _ => rfl, fun _ s => rfl, fun h => absurd h (lt_irrefl li), ?_⟩
      intro _ k l hk1 hk2 hl1 hl2 hne
      exfalso
      have hk : k = li := le_antisymm hk2 hk1
      have hl : l = li := le_antisymm hl2 hl1
      subst hk
      subst hl
      exact hne rfl
    · by_cases hbase2 : ri - li = 1
      · -- two elements
        rw [encShannon_base2 hbase2] at hsome
        have hcc := (Option.some.inj hsome).symm
        subst hcc
        have hne : (ptab t li).ch ≠ (ptab t ri).ch :=
          hdist li ri le_rfl hlr hlr le_rfl (by omega)
        refine ⟨?_, ?_, ?_, ?_⟩
        · intro s hs
          rw [appendBit_ne _ _ _ (hs ri hlr le_rfl), appendBit_ne _ _ _ (hs li le_rfl hlr)]
        · intro h; exact absurd h (by omega)
        · intro _ k hk1 hk2
          rcases (by omega : li = k ∨ ri = k) with hk | hk
          · subst hk
            refine ⟨[false], by simp, ?_⟩
            rw [appendBit_ne _ _ _ hne, appendBit_self]
          · subst hk
            refine ⟨[true], by simp, ?_⟩
            rw [appendBit_self, appendBit_ne _ _ _ hne.symm]
        · intro hstart k l hk1 hk2 hl1 hl2 hne2
          rcases (by omega : li = k ∨ ri = k) with hk | hk <;>
            rcases (by omega : li = l ∨ ri = l) with hl | hl <;> subst hk <;> subst hl
          · exact absurd rfl hne2
          · rw [appendBit_ne _ _ _ hne, appendBit_self, appendBit_self,
              appendBit_ne _ _ _ hne.symm, hstart li ri le_rfl hlr hlr le_rfl]
            exact not_pre_of_diverge _ (by simp : false ≠ true) [] []
          · rw [appendBit_ne _ _ _ hne, appendBit_self, appendBit_self,
              appendBit_ne _ _ _ hne.symm, hstart li ri le_rfl hlr hlr le_rfl]
            exact not_pre_of_diverge _ (by simp : true ≠ false) [] []
          · exact absurd rfl hne2
      · -- general case: at least three elements
        have h3 : li + 2 ≤ ri := by omega
        rw [encShannon_general (by omega) hbase2] at hsome
        set n := (ri + 1 - li).toNat with hn
        have hnInt : ((n : Nat) : Int) = ri + 1 - li := Int.toNat_of_nonneg (by omega)
        have hnpos : 0 < n := by omega
        have hposW : ∀ k : Int, li ≤ k → k < li + (n : Int) → 0 ≤ (ptab t k).p := by
          intro k hk1 hk2
          exact le_of_lt (hpos k hk1 (by omega))
        have hdistW : ∀ k l : Int, li ≤ k → k < li + (n : Int) → li ≤ l → l < li + (n : Int) →
            k ≠ l → (ptab t k).ch ≠ (ptab t l).ch := by
          intro k l hk1 hk2 hl1 hl2 hkl
          exact hdist k l hk1 (by omega) hl1 (by omega) hkl
        have hfull : 0 < sumRange t n li :=
          sumRange_pos t n li (fun k hk1 hk2 => hpos k hk1 (by omega)) hnpos
        obtain ⟨hsum, hframe1, hdisj⟩ := scanLoop_before t (sumRange t n li / 2) n li 0 codes
          hli (by linarith) hposW hdistW
        set sc := scanLoop t (sumRange t n li / 2) n li 0 (-1) codes with hscdef
        rcases hdisj with ⟨hneg, hple, _⟩ | ⟨hisp1, hisp2, hzeros, hones⟩
        · exfalso
          rw [hsum] at hple
          linarith
        · have hispneg : ¬ sc.2.1 < 0 := by omega
          rw [if_neg hispneg] at hsome
          have hispri : sc.2.1 ≤ ri := by omega
          cases hleft : encShannon t m li (sc.2.1 - 1) sc.2.2 with
          | none =>
            rw [hleft] at hsome
            exact absurd hsome (by simp)
          | some codes2 =>
            rw [hleft] at hsome
            simp only at hsome
            have hlip1 : li + 1 ≤ sc.2.1 := by
              by_contra hcon
              have hscli : sc.2.1 = li := by omega
              rw [hscli, encShannon_neg t m li (li - 1) _ (by omega)] at hleft
              exact absurd hleft (by simp)
            have hzeros' : ∀ k : Int, li ≤ k → k ≤ sc.2.1 - 1 →
                sc.2.2 (ptab t k).ch = codes (ptab t k).ch ++ [false] := by
              intro k hk1 hk2
              exact hzeros k hk1 (by omega)
            have hones' : ∀ k : Int, sc.2.1 ≤ k → k ≤ ri →
                sc.2.2 (ptab t k).ch = codes (ptab t k).ch ++ [true] := by
              intro k hk1 hk2
              exact hones k hk1 (by omega)
            obtain ⟨A1, B1, C1, D1⟩ := ih li (sc.2.1 - 1) sc.2.2 codes2 hleft hli (by omega)
              (fun k hk1 hk2 => hpos k hk1 (by omega))
              (fun k l hk1 hk2 hl1 hl2 hkl => hdist k l hk1 (by omega) hl1 (by omega) hkl)
            obtain ⟨A2, B2, C2, D2⟩ := ih sc.2.1 ri codes2 codes' hsome (by omega) hispri
              (fun k hk1 hk2 => hpos k (by omega) hk2)
              (fun k l hk1 hk2 hl1 hl2 hkl => hdist k l (by omega) hk2 (by omega) hl2 hkl)
            have hext_left : ∀ k : Int, li ≤ k → k ≤ sc.2.1 - 1 →
                ∃ u, codes2 (ptab t k).ch = sc.2.2 (ptab t k).ch ++ u := by
              intro k hk1 hk2
              rcases eq_or_lt_of_le (show li ≤ sc.2.1 - 1 by omega) with he | hlt2
              · exact ⟨[], by rw [List.append_nil]; exact B1 he _⟩
              · obtain ⟨u, _, hu⟩ := C1 hlt2 k hk1 hk2
                exact ⟨u, hu⟩
            have hext_right : ∀ k : Int, sc.2.1 ≤ k → k ≤ ri →
                ∃ u, codes' (ptab t k).ch = codes2 (ptab t k).ch ++ u := by
              intro k hk1 hk2
              rcases eq_or_lt_of_le hispri with he | hlt2
              · exact ⟨[], by rw [List.append_nil]; exact B2 he _⟩
              · obtain ⟨u, _, hu⟩ := C2 hlt2 k hk1 hk2
                exact ⟨u, hu⟩
            have hA2L : ∀ k : Int, li ≤ k → k ≤ sc.2.1 - 1 →
                codes' (ptab t k).ch = codes2 (ptab t k).ch := by
              intro k hk1 hk2
              exact A2 _ (fun l hl1 hl2 =>
                (hdist k l hk1 (by omega) (by omega) hl2 (by omega)))
            have hA1R : ∀ k : Int, sc.2.1 ≤ k → k ≤ ri →
                codes2 (ptab t k).ch = sc.2.2 (ptab t k).ch := by
              intro k hk1 hk2
              exact A1 _ (fun l hl1 hl2 =>
                (hdist k l (by omega) hk2 hl1 (by omega) (by omega)))
            refine ⟨?_, ?_, ?_, ?_⟩
            · intro s hs
              rw [A2 s (fun k hk1 hk2 => hs k (by omega) hk2),
                A1 s (fun k hk1 hk2 => hs k hk1 (by omega)),
                hframe1 s (fun k hk1 hk2 => hs k hk1 (by omega))]
            · intro h
              exact absurd h (by omega)
            · intro _ k hk1 hk2
              by_cases hkL : k ≤ sc.2.1 - 1
              · obtain ⟨u, hu⟩ := hext_left k hk1 hkL
                refine ⟨[false] ++ u, by simp, ?_⟩
                rw [hA2L k hk1 hkL, hu, hzeros' k hk1 hkL, List.append_assoc]
              · have hk3 : sc.2.1 ≤ k := by omega
                obtain ⟨u, hu⟩ := hext_right k hk3 hk2
                refine ⟨[true] ++ u, by simp, ?_⟩
                rw [hu, hA1R k hk3 hk2, hones' k hk3 hk2, List.append_assoc]
            · intro hstart k l hk1 hk2 hl1 hl2 hne2
              by_cases hkL : k ≤ sc.2.1 - 1 <;> by_cases hlL : l ≤ sc.2.1 - 1
              · have hstart1 : ∀ a b : Int, li ≤ a → a ≤ sc.2.1 - 1 → li ≤ b → b ≤ sc.2.1 - 1 →
                    sc.2.2 (ptab t a).ch = sc.2.2 (ptab t b).ch := by
                  intro a b ha1 ha2 hb1 hb2
                  rw [hzeros' a ha1 ha2, hzeros' b hb1 hb2,
                    hstart a b ha1 (by omega) hb1 (by omega)]
                have hd1 := D1 hstart1 k l hk1 hkL hl1 hlL hne2
                rw [hA2L k hk1 hkL, hA2L l hl1 hlL]
                exact hd1
              · have hl3 : sc.2.1 ≤ l := by omega
                obtain ⟨u, hu⟩ := hext_left k hk1 hkL
                obtain ⟨v, hv⟩ := hext_right l hl3 hl2
                rw [hA2L k hk1 hkL, hu, hzeros' k hk1 hkL, hv, hA1R l hl3 hl2,
                  hones' l hl3 hl2, hstart k l hk1 hk2 hl1 hl2,
                  List.append_assoc, List.append_assoc]
                exact not_pre_of_diverge _ (by simp : false ≠ true) u v
              · have hk3 : sc.2.1 ≤ k := by omega
                obtain ⟨u, hu⟩ := hext_right k hk3 hk2
                obtain ⟨v, hv⟩ := hext_left l hl1 hlL
                rw [hu, hA1R k hk3 hk2, hones' k hk3 hk2, hA2L l hl1 hlL, hv,
                  hzeros' l hl1 hlL, hstart k l hk1 hk2 hl1 hl2,
                  List.append_assoc, List.append_assoc]
                exact not_pre_of_diverge _ (by simp : true ≠ false) u v
              · have hk3 : sc.2.1 ≤ k := by omega
                have hl3 : sc.2.1 ≤ l := by omega
                have hstart2 : ∀ a b : Int, sc.2.1 ≤ a → a ≤ ri → sc.2.1 ≤ b → b ≤ ri →
                    codes2 (ptab t a).ch = codes2 (ptab t b).ch := by
                  intro a b ha1 ha2 hb1 hb2
                  rw [hA1R a ha1 ha2, hA1R b hb1 hb2, hones' a ha1 ha2, hones' b hb1 hb2,
                    hstart a b (by omega) ha2 (by omega) hb2]
                exact D2 hstart2 k l hk3 hk2 hl3 hl2 hne2

/-- The fused centre-searching loop of the source agrees with the spec's
description: final sum, first-'1' split index, and per-element running-sum
bits. -/
theorem scanLoop_spec (t : List PNode) (lo hi : Int) (hlo : 0 ≤ lo) :
    ∀ (n : Nat) (i isp : Int) (codes : Nat → List Bool), lo ≤ i →
      isp = -1 ∨ 0 ≤ isp →
      scanLoop t (runSum t lo hi / 2) n i (sumRange t (i - lo).toNat lo) isp codes
        = (sumRange t ((i - lo).toNat + n) lo,
           (if isp < 0 then firstOne t lo hi n i else isp),
           specAssign t lo hi n i codes) := by
  intro n
  induction n with
  | zero =>
    intro i isp codes hilo hisp
    rw [scanLoop, firstOne, specAssign]
    rcases hisp with h | h
    · rw [h, if_pos (by omega : (-1 : Int) < 0)]
      simp
    · rw [if_neg (by omega : ¬ isp < 0)]
      simp
  | succ m ih =>
    intro i isp codes hilo hisp
    have harith : sumRange t (i - lo).toNat lo + (ptab t i).p = runSum t lo i := by
      have h1 : (i + 1 - lo).toNat = (i - lo).toNat + 1 := by omega
      rw [runSum, h1, sumRange_succ_back]
      have h2 : lo + ((i - lo).toNat : Int) = i := by omega
      rw [h2]
    have hruns : runSum t lo i = sumRange t ((i + 1) - lo).toNat lo := by
      rw [runSum]
    have h3 : ((i + 1) - lo).toNat + m = (i - lo).toNat + (m + 1) := by omega
    by_cases hc : sumRange t (i - lo).toNat lo + (ptab t i).p ≤ runSum t lo hi / 2
    · have hbit : specBit t lo hi i = false := by
        rw [specBit, if_pos (by rw [← harith]; exact hc)]
      rw [scanLoop_step_le hc, harith, hruns]
      rw [ih (i + 1) isp (appendBit codes (ptab t i).ch false) (by omega) hisp]
      rw [firstOne, specAssign, hbit, h3]
      simp
    · have hbit : specBit t lo hi i = true := by
        rw [specBit, if_neg (by rw [← harith]; exact hc)]
      rw [scanLoop_step_gt hc, harith, hruns]
      have hisp2 : (if isp < 0 then i else isp) = -1 ∨ 0 ≤ (if isp < 0 then i else isp) := by
        rcases hisp with h | h
        · right; rw [if_pos (by omega)]; omega
        · right; rw [if_neg (by omega)]; exact h
      rw [ih (i + 1) (if isp < 0 then i else isp) (appendBit codes (ptab t i).ch true)
        (by omega) hisp2]
      rw [firstOne, specAssign, hbit, h3]
      rcases hisp with h | h
      · rw [h]
        rw [if_pos (by omega : (-1 : Int) < 0), if_pos (by omega : (-1 : Int) < 0),
          if_neg (by omega : ¬ i < 0)]
        simp
      · rw [if_neg (by omega : ¬ isp < 0)]
        simp [if_neg (by omega : ¬ isp < 0)]

/-! Decoder lemmas. -/

theorem decodeStep_keep (codes : List (Nat × List Bool))
    (hne : ∀ e ∈ codes, e.2 ≠ ([] : List Bool)) :
    ∀ o : List Nat,
      codes.foldl (fun st e => if e.2 = st.2 then (st.1 ++ [e.1], []) else st) (o, ([] : List Bool))
        = (o, []) := by
  induction codes with
  | nil => intro o; rfl
  | cons e rest ih =>
    intro o
    rw [List.foldl_cons, if_neg (hne e (by simp))]
    exact ih (fun f hf => hne f (by simp [hf])) o

/-- One scan of the code table over a fixed accumulator: either no codeword
equals the accumulator and nothing changes, or some matching entry is emitted
and the accumulator is cleared. -/
theorem decodeStep_char (codes : List (Nat × List Bool))
    (hne : ∀ e ∈ codes, e.2 ≠ ([] : List Bool)) (a : List Bool) :
    (decodeStep codes a = ([], a) ∧ ∀ e ∈ codes, e.2 ≠ a) ∨
    (∃ s, decodeStep codes a = ([s], []) ∧ (s, a) ∈ codes) := by
  induction codes with
  | nil => exact Or.inl ⟨rfl, by simp⟩
  | cons e rest ih =>
    by_cases he : e.2 = a
    · right
      refine ⟨e.1, ?_, ?_⟩
      · rw [decodeStep, List.foldl_cons, if_pos he]
        exact decodeStep_keep rest (fun f hf => hne f (by simp [hf])) [e.1]
      · have he2 : (e.1, a) = e := by rw [← he]
        rw [he2]
        exact List.mem_cons_self e rest
    · rcases ih (fun f hf => hne f (by simp [hf])) with ⟨h1, h2⟩ | ⟨s, h1, h2⟩
      · left
        refine ⟨?_, ?_⟩
        · rw [decodeStep, List.foldl_cons, if_neg he]
          exact h1
        · intro f hf
          rcases List.mem_cons.mp hf with hfe | hfr
          · rw [hfe]; exact he
          · exact h2 f hfr
      · right
        refine ⟨s, ?_, by simp [h2]⟩
        rw [decodeStep, List.foldl_cons, if_neg he]
        exact h1

theorem cwOf_mem {codes : List (Nat × List Bool)} (hnd : (codes.map Prod.fst).Nodup)
    {s : Nat} {w : List Bool} (hmem : (s, w) ∈ codes) : cwOf codes s = w := by
  induction codes with
  | nil => cases hmem
  | cons e rest ih =>
    rw [cwOf]
    rcases List.mem_cons.mp hmem with he | he
    · rw [if_pos (by rw [← he])]
      rw [← he]
    · have hnd2 : (rest.map Prod.fst).Nodup := (List.nodup_cons.mp hnd).2
      by_cases h1 : e.1 = s
      · exfalso
        have hs : s ∈ rest.map Prod.fst := List.mem_map.mpr ⟨(s, w), he, rfl⟩
        rw [← h1] at hs
        exact (List.nodup_cons.mp hnd).1 (by simpa using hs)
      · rw [if_neg h1]
        exact ih hnd2 he

/-- Soundness invariant of the decoding loop: the concatenated codewords of the
emitted symbols followed by the leftover accumulator reproduce the consumed
input, and each bit emits at most one symbol. -/
theorem decodeAcc_inv (codes : List (Nat × List Bool))
    (hne : ∀ e ∈ codes, e.2 ≠ ([] : List Bool)) (hnd : (codes.map Prod.fst).Nodup) :
    ∀ (bits accum : List Bool),
      ((decodeAcc codes accum bits).1.map (cwOf codes)).flatten
          ++ (decodeAcc codes accum bits).2 = accum ++ bits ∧
      (decodeAcc codes accum bits).1.length ≤ bits.length := by
  intro bits
  induction bits with
  | nil =>
    intro accum
    refine ⟨by simp [decodeAcc], by simp [decodeAcc]⟩
  | cons b rest ih =>
    intro accum
    rcases decodeStep_char codes hne (accum ++ [b]) with ⟨hstep, _⟩ | ⟨s, hstep, hsmem⟩
    · obtain ⟨ih1, ih2⟩ := ih (accum ++ [b])
      rw [decodeAcc]
      simp only [hstep]
      refine ⟨?_, ?_⟩
      · rw [List.nil_append, ih1, List.append_assoc]
        simp
      · simp only [List.nil_append, List.length_cons]
        exact le_trans ih2 (Nat.le_succ _)
    · obtain ⟨ih1, ih2⟩ := ih []
      rw [decodeAcc]
      simp only [hstep]
      have hcw : cwOf codes s = accum ++ [b] := cwOf_mem hnd hsmem
      refine ⟨?_, ?_⟩
      · simp only [List.singleton_append, List.map_cons, List.flatten_cons, hcw]
        rw [List.append_assoc, ih1]
        simp
      · simp only [List.singleton_append, List.length_cons]
        exact Nat.succ_le_succ ih2

/-- Reading exactly one full codeword (no other codeword being a prefix of it)
emits exactly its symbol and returns to the empty accumulator. -/
theorem decode_consume (codes : List (Nat × List Bool))
    (hne : ∀ e ∈ codes, e.2 ≠ ([] : List Bool))
    (hpw : ∀ e f, e ∈ codes → f ∈ codes → e ≠ f → ¬ (e.2 <+: f.2)) :
    ∀ (v u : List Bool) (s : Nat) (tail : List Bool), v ≠ [] → (s, u ++ v) ∈ codes →
      decodeAcc codes u (v ++ tail)
        = (s :: (decodeAcc codes [] tail).1, (decodeAcc codes [] tail).2) := by
  intro v
  induction v with
  | nil => intro u s tail hv; exact absurd rfl hv
  | cons b v2 ih =>
    intro u s tail _ hmem
    by_cases hv2 : v2 = []
    · subst hv2
      rcases decodeStep_char codes hne (u ++ [b]) with ⟨_, hnomatch⟩ | ⟨s2, hstep, hs2⟩
      · exact absurd rfl (hnomatch (s, u ++ [b]) hmem)
      · have hs2s : (s2, u ++ [b]) = (s, u ++ [b]) := by
          by_contra hne2
          exact hpw _ _ hs2 hmem hne2 ⟨[], by simp⟩
        injection hs2s with h1 _
        subst h1
        rw [show ([b] : List Bool) ++ tail = b :: tail from rfl, decodeAcc]
        simp only [hstep]
        simp
    · rcases decodeStep_char codes hne (u ++ [b]) with ⟨hstep, _⟩ | ⟨s2, hstep, hs2⟩
      · have hmem2 : (s, (u ++ [b]) ++ v2) ∈ codes := by
          simpa [List.append_assoc] using hmem
        rw [List.cons_append, decodeAcc]
        simp only [hstep]
        rw [ih (u ++ [b]) s tail hv2 hmem2]
        simp
      · exfalso
        have hne2 : (s2, u ++ [b]) ≠ (s, u ++ (b :: v2)) := by
          intro h
          injection h with _ h2
          have h3 := List.append_cancel_left h2
          simp at h3
          exact hv2 h3
        exact hpw _ _ hs2 hmem hne2 ⟨v2, by simp [List.append_assoc]⟩

/-- Decoding the concatenation of codewords of a prefix-free, duplicate-free
code table yields exactly the encoded symbol sequence, with empty leftover. -/
theorem decode_flatten (codes : List (Nat × List Bool))
    (hne : ∀ e ∈ codes, e.2 ≠ ([] : List Bool))
    (hpw : ∀ e f, e ∈ codes → f ∈ codes → e ≠ f → ¬ (e.2 <+: f.2)) :
    ∀ (L : List Nat) (cw : Nat → List Bool), (∀ s ∈ L, (s, cw s) ∈ codes) →
      decodeAcc codes [] ((L.map cw).flatten) = (L, []) := by
  intro L
  induction L with
  | nil => intro cw _; rfl
  | cons s L2 ih =>
    intro cw hmem
    have hcw : cw s ≠ [] := hne (s, cw s) (hmem s (by simp))
    rw [List.map_cons, List.flatten_cons]
    rw [decode_consume codes hne hpw (cw s) [] s _ hcw (by simpa using hmem s (by simp))]
    rw [ih cw (fun x hx => hmem x (by simp [hx]))]

theorem decodeStep_dich (codes : List (Nat × List Bool)) :
    ∀ (o : List Nat) (a : List Bool),
      (codes.foldl (fun st e => if e.2 = st.2 then (st.1 ++ [e.1], []) else st) (o, a)).2 = [] ∨
      codes.foldl (fun st e => if e.2 = st.2 then (st.1 ++ [e.1], []) else st) (o, a) = (o, a) := by
  induction codes with
  | nil => intro o a; exact Or.inr rfl
  | cons e rest ih =>
    intro o a
    rw [List.foldl_cons]
    by_cases he : e.2 = a
    · rw [if_pos he]
      rcases ih (o ++ [e.1]) [] with h | h
      · exact Or.inl h
      · exact Or.inl (by rw [h])
    · rw [if_neg he]
      exact ih o a

/-- The decoding loop either never matches (leftover is everything) or its
output is the clean decode of some prefix of the bitstream, the rest being
returned as the leftover accumulator. -/
theorem decode_discard (codes : List (Nat × List Bool)) :
    ∀ (bits accum : List Bool),
      ((decodeAcc codes accum bits).1 = [] ∧ (decodeAcc codes accum bits).2 = accum ++ bits) ∨
      (∃ k, k ≤ bits.length ∧
        decodeAcc codes accum (List.take k bits) = ((decodeAcc codes accum bits).1, []) ∧
        (decodeAcc codes accum bits).2 = List.drop k bits) := by
  intro bits
  induction bits with
  | nil =>
    intro accum
    exact Or.inl ⟨rfl, by simp [decodeAcc]⟩
  | cons b rest ih =>
    intro accum
    rcases hstep : decodeStep codes (accum ++ [b]) with ⟨o1, a1⟩
    rcases decodeStep_dich codes [] (accum ++ [b]) with hd | hd
    · -- a match happened on this bit: the accumulator was cleared
      have hd1 : (decodeStep codes (accum ++ [b])).2 = [] := hd
      rw [hstep] at hd1
      simp only at hd1
      subst hd1
      right
      rcases ih [] with ⟨h1, h2⟩ | ⟨k, hk, htake, hdrop⟩
      · refine ⟨1, by simp, ?_, ?_⟩
        · rw [show List.take 1 (b :: rest) = [b] from rfl]
          simp only [decodeAcc, hstep]
          simp [h1]
        · rw [show List.drop 1 (b :: rest) = rest from rfl]
          simp only [decodeAcc, hstep]
          simpa using h2
      · refine ⟨k + 1, by simpa using hk, ?_, ?_⟩
        · rw [List.take_succ_cons]
          simp only [decodeAcc, hstep]
          rw [htake]
        · rw [List.drop_succ_cons]
          simp only [decodeAcc, hstep]
          exact hdrop
    · -- no match: the accumulator keeps growing
      have hd1 : decodeStep codes (accum ++ [b]) = ([], accum ++ [b]) := hd
      rw [hstep] at hd1
      injection hd1 with ho1 ha1
      subst ho1
      subst ha1
      rcases ih (accum ++ [b]) with ⟨h1, h2⟩ | ⟨k, hk, htake, hdrop⟩
      · left
        simp only [decodeAcc, hstep]
        refine ⟨by simp [h1], ?_⟩
        rw [h2]
        simp
      · right
        refine ⟨k + 1, by simpa using hk, ?_, ?_⟩
        · rw [List.take_succ_cons]
          simp only [decodeAcc, hstep]
          rw [htake]
        · rw [List.drop_succ_cons]
          simp only [decodeAcc, hstep]
          exact hdrop

/-! Properties of the probability table construction. -/

theorem sortedKeys_nodup (S : List Nat) : (sortedKeys S).Nodup :=
  ((List.perm_insertionSort _ _).nodup_iff).mpr S.nodup_dedup

theorem mem_sortedKeys {S : List Nat} {c : Nat} : c ∈ sortedKeys S ↔ c ∈ S := by
  rw [sortedKeys, (List.perm_insertionSort _ _).mem_iff, List.mem_dedup]

theorem buildPTable_perm (S : List Nat) :
    List.Perm (buildPTable S)
      ((sortedKeys S).map fun c => (⟨c, (S.count c : ℚ) / (S.length : ℚ)⟩ : PNode)) :=
  List.perm_insertionSort _ _

theorem buildPTable_map_ch (S : List Nat) :
    List.Perm ((buildPTable S).map PNode.ch) (sortedKeys S) := by
  have h := (buildPTable_perm S).map PNode.ch
  rw [List.map_map] at h
  have h2 : (PNode.ch ∘ fun c => (⟨c, (S.count c : ℚ) / (S.length : ℚ)⟩ : PNode)) = id := by
    funext c; rfl
  rw [h2, List.map_id] at h
  exact h

theorem buildPTable_ch_nodup (S : List Nat) : ((buildPTable S).map PNode.ch).Nodup :=
  ((buildPTable_map_ch S).nodup_iff).mpr (sortedKeys_nodup S)

theorem buildPTable_length (S : List Nat) :
    (buildPTable S).length = (sortedKeys S).length := by
  rw [(buildPTable_perm S).length_eq, List.length_map]

theorem mem_buildPTable {S : List Nat} {n : PNode} (h : n ∈ buildPTable S) :
    n.ch ∈ S ∧ n.p = (S.count n.ch : ℚ) / (S.length : ℚ) := by
  have h2 := (buildPTable_perm S).mem_iff.mp h
  obtain ⟨c, hc, rfl⟩ := List.mem_map.mp h2
  exact ⟨mem_sortedKeys.mp hc, rfl⟩

theorem buildPTable_pos {S : List Nat} {n : PNode} (hS : S ≠ []) (h : n ∈ buildPTable S) :
    0 < n.p := by
  obtain ⟨hmem, hp⟩ := mem_buildPTable h
  rw [hp]
  apply div_pos
  · exact_mod_cast List.count_pos_iff.mpr hmem
  · exact_mod_cast List.length_pos_iff_ne_nil.mpr hS

theorem ptab_get {t : List PNode} {i : Int} (_h0 : 0 ≤ i) (h1 : i.toNat < t.length) :
    ptab t i = t.get ⟨i.toNat, h1⟩ := by
  rw [ptab, List.getD_eq_getElem _ _ h1, List.get_eq_getElem]

theorem ptab_mem {t : List PNode} {i : Int} (h0 : 0 ≤ i) (h1 : i < (t.length : Int)) :
    ptab t i ∈ t := by
  have h2 : i.toNat < t.length := by omega
  rw [ptab_get h0 h2]
  exact t.get_mem _ _

theorem buildPTable_posAt {S : List Nat} (hS : S ≠ []) :
    ∀ k : Int, 0 ≤ k → k < ((buildPTable S).length : Int) → 0 < (ptab (buildPTable S) k).p := by
  intro k hk0 hk1
  exact buildPTable_pos hS (ptab_mem hk0 hk1)

theorem buildPTable_dist (S : List Nat) :
    ∀ k l : Int, 0 ≤ k → k < ((buildPTable S).length : Int) → 0 ≤ l →
      l < ((buildPTable S).length : Int) → k ≠ l →
      (ptab (buildPTable S) k).ch ≠ (ptab (buildPTable S) l).ch := by
  intro k l hk0 hk1 hl0 hl1 hkl
  have hk2 : k.toNat < (buildPTable S).length := by omega
  have hl2 : l.toNat < (buildPTable S).length := by omega
  rw [ptab_get hk0 hk2, ptab_get hl0 hl2]
  intro heq
  apply hkl
  have hnd := buildPTable_ch_nodup S
  have hk3 : k.toNat < ((buildPTable S).map PNode.ch).length := by simpa using hk2
  have hl3 : l.toNat < ((buildPTable S).map PNode.ch).length := by simpa using hl2
  have heq2 : ((buildPTable S).map PNode.ch).get ⟨k.toNat, hk3⟩
      = ((buildPTable S).map PNode.ch).get ⟨l.toNat, hl3⟩ := by
    rw [List.get_eq_getElem, List.get_eq_getElem, List.getElem_map, List.getElem_map]
    simpa [List.get_eq_getElem] using heq
  have hfin := (hnd.get_inj_iff).mp heq2
  have hval : k.toNat = l.toNat := congrArg Fin.val hfin
  omega

/-- Eliminator for a successful `Encode`: extract the codeword table and the
artifact's components. -/
theorem Encode_elim {fuel : Nat} {S : List Nat} {a : Artifact} (h : Encode fuel S = some a) :
    ∃ codes, encShannon (buildPTable S) fuel 0 (((buildPTable S).length : Int) - 1)
        (fun _ => []) = some codes ∧
      a.rows = (buildPTable S).map (fun n => (n.ch, n.p, codes n.ch)) ∧
      a.bits = (S.map fun c => codes c).flatten := by
  rw [Encode] at h
  cases henc : encShannon (buildPTable S) fuel 0 (((buildPTable S).length : Int) - 1)
      (fun _ => []) with
  | none =>
    rw [henc] at h
    exact absurd h (by simp)
  | some codes =>
    rw [henc] at h
    simp only at h
    obtain rfl := Option.some.inj h
    exact ⟨codes, rfl, rfl, rfl⟩

theorem dedupKeys_id : ∀ l : List (Nat × List Bool), (l.map Prod.fst).Nodup → dedupKeys l = l := by
  intro l
  induction l with
  | nil => intro _; rfl
  | cons e rest ih =>
    intro hnd
    rw [List.map_cons] at hnd
    have hnd2 := List.nodup_cons.mp hnd
    rw [dedupKeys, if_neg (by simpa using hnd2.1)]
    rw [ih hnd2.2]

/-- Facts about the codeword table of a successful multi-symbol run of the
code tree builder: all codewords of observed symbols are non-empty and no
codeword is a prefix of another symbol's codeword. -/
theorem Encode_codes_facts {fuel : Nat} {S : List Nat} {codes : Nat → List Bool}
    (hS2 : 2 ≤ (sortedKeys S).length)
    (henc : encShannon (buildPTable S) fuel 0 (((buildPTable S).length : Int) - 1)
      (fun _ => []) = some codes) :
    (∀ c ∈ sortedKeys S, codes c ≠ []) ∧
    (∀ c cc, c ∈ sortedKeys S → cc ∈ sortedKeys S → c ≠ cc → ¬ (codes c <+: codes cc)) := by
  have hlen : (buildPTable S).length = (sortedKeys S).length := buildPTable_length S
  have hSne : S ≠ [] := by
    intro h
    subst h
    simp [sortedKeys] at hS2
  have hki : ∀ c ∈ sortedKeys S, ∃ k : Int, 0 ≤ k ∧ k ≤ ((buildPTable S).length : Int) - 1 ∧
      (ptab (buildPTable S) k).ch = c := by
    intro c hc
    have h2 : c ∈ (buildPTable S).map PNode.ch := (buildPTable_map_ch S).mem_iff.mpr hc
    obtain ⟨n, hn, hnc⟩ := List.mem_map.mp h2
    obtain ⟨i, hi⟩ := List.mem_iff_get.mp hn
    refine ⟨(i : Nat), by omega, by omega, ?_⟩
    have hi2 : ((i : Nat) : Int).toNat < (buildPTable S).length := by
      have := i.isLt
      omega
    rw [ptab_get (by omega) hi2]
    have hieq : (⟨((i : Nat) : Int).toNat, hi2⟩ : Fin (buildPTable S).length) = i := by
      apply Fin.ext
      simp
    rw [hieq, hi, hnc]
  obtain ⟨A, B, C, D⟩ := encShannon_main (buildPTable S) fuel 0
    (((buildPTable S).length : Int) - 1) (fun _ => []) codes henc le_rfl (by omega)
    (fun k hk1 hk2 => buildPTable_posAt hSne k hk1 (by omega))
    (fun k l hk1 hk2 hl1 hl2 hkl => buildPTable_dist S k l hk1 (by omega) hl1 (by omega) hkl)
  constructor
  · intro c hc
    obtain ⟨k, hk0, hk1, hkc⟩ := hki c hc
    obtain ⟨u, hu, hcu⟩ := C (by omega) k hk0 hk1
    rw [← hkc, hcu]
    simpa using hu
  · intro c cc hc hcc hne
    obtain ⟨k, hk0, hk1, hkc⟩ := hki c hc
    obtain ⟨l, hl0, hl1, hlc⟩ := hki cc hcc
    have hD := D (fun _ _ _ _ _ _ => rfl) k l hk0 hk1 hl0 hl1 (by rw [hkc, hlc]; exact hne)
    rw [hkc, hlc] at hD
    exact hD

/-- Round-trip assembly: decoding a successful multi-symbol encode recovers
the input exactly. -/
theorem Encode_Decode_round (fuel : Nat) (S : List Nat) (a : Artifact)
    (h2 : 2 ≤ (sortedKeys S).length) (henc : Encode fuel S = some a) :
    Decode a = S := by
  obtain ⟨codes, henc2, hrows, hbits⟩ := Encode_elim henc
  obtain ⟨hne0, hpw0⟩ := Encode_codes_facts h2 henc2
  have hbase : a.rows.map (fun r => (r.1, r.2.2))
      = (buildPTable S).map (fun n => (n.ch, codes n.ch)) := by
    rw [hrows, List.map_map]
    rfl
  have hkeysNodup : ((a.rows.map (fun r => (r.1, r.2.2))).map Prod.fst).Nodup := by
    rw [hbase, List.map_map]
    exact buildPTable_ch_nodup S
  have hded : dedupKeys (a.rows.map (fun r => (r.1, r.2.2)))
      = a.rows.map (fun r => (r.1, r.2.2)) := dedupKeys_id _ hkeysNodup
  have hperm : List.Perm (codeTableOf a) ((buildPTable S).map (fun n => (n.ch, codes n.ch))) := by
    rw [codeTableOf, hded, hbase]
    exact List.perm_insertionSort _ _
  have hch_mem : ∀ n ∈ buildPTable S, n.ch ∈ sortedKeys S := by
    intro n hn
    exact (buildPTable_map_ch S).mem_iff.mp (List.mem_map.mpr ⟨n, hn, rfl⟩)
  have hTBelem : ∀ e ∈ codeTableOf a, ∃ n ∈ buildPTable S, e = (n.ch, codes n.ch) := by
    intro e he
    obtain ⟨n, hn, heq⟩ := List.mem_map.mp (hperm.mem_iff.mp he)
    exact ⟨n, hn, heq.symm⟩
  have hne : ∀ e ∈ codeTableOf a, e.2 ≠ ([] : List Bool) := by
    intro e he
    obtain ⟨n, hn, rfl⟩ := hTBelem e he
    exact hne0 n.ch (hch_mem n hn)
  have hpw : ∀ e f, e ∈ codeTableOf a → f ∈ codeTableOf a → e ≠ f → ¬ (e.2 <+: f.2) := by
    intro e f he hf hef
    obtain ⟨n1, hn1, rfl⟩ := hTBelem e he
    obtain ⟨n2, hn2, rfl⟩ := hTBelem f hf
    by_cases hch : n1.ch = n2.ch
    · exact absurd (by rw [hch]) hef
    · exact hpw0 n1.ch n2.ch (hch_mem n1 hn1) (hch_mem n2 hn2) hch
  have hSmem : ∀ s ∈ S, (s, codes s) ∈ codeTableOf a := by
    intro s hs
    have hs1 : s ∈ sortedKeys S := mem_sortedKeys.mpr hs
    have hs2 : s ∈ (buildPTable S).map PNode.ch := (buildPTable_map_ch S).mem_iff.mpr hs1
    obtain ⟨n, hn, rfl⟩ := List.mem_map.mp hs2
    rw [hperm.mem_iff]
    exact List.mem_map.mpr ⟨n, hn, rfl⟩
  rw [Decode, hbits, decode_flatten (codeTableOf a) hne hpw S (fun c => codes c) hSmem]

/-- Each iteration of the centre-searching scan appends exactly one bit to the
element it visits (and touches nothing else), for pairwise distinct symbols. -/
theorem scanLoop_one_bit (t : List PNode) (phalf : ℚ) :
    ∀ (n : Nat) (i : Int) (p : ℚ) (isp : Int) (codes : Nat → List Bool),
      (∀ k l : Int, i ≤ k → k < i + n → i ≤ l → l < i + n → k ≠ l →
        (ptab t k).ch ≠ (ptab t l).ch) →
      (∀ s : Nat, (∀ k : Int, i ≤ k → k < i + n → s ≠ (ptab t k).ch) →
        (scanLoop t phalf n i p isp codes).2.2 s = codes s) ∧
      (∀ k : Int, i ≤ k → k < i + n → ∃ b : Bool,
        (scanLoop t phalf n i p isp codes).2.2 (ptab t k).ch = codes (ptab t k).ch ++ [b]) := by
  intro n
  induction n with
  | zero =>
    intro i p isp codes _
    refine ⟨fun s _ => by simp [scanLoop], ?_⟩
    intro k hk1 hk2
    exfalso; push_cast at hk2; omega
  | succ m ih =>
    intro i p isp codes hdist
    have hm1 : ((m + 1 : Nat) : Int) = (m : Int) + 1 := by push_cast; ring
    have hdist2 : ∀ a b : Int, i + 1 ≤ a → a < (i + 1) + (m : Int) → i + 1 ≤ b →
        b < (i + 1) + (m : Int) → a ≠ b → (ptab t a).ch ≠ (ptab t b).ch := by
      intro a b ha1 ha2 hb1 hb2 hab
      exact hdist a b (by omega) (by rw [hm1]; omega) (by omega) (by rw [hm1]; omega) hab
    have hfresh : ∀ l : Int, i + 1 ≤ l → l < (i + 1) + (m : Int) →
        (ptab t i).ch ≠ (ptab t l).ch := by
      intro l hl1 hl2
      exact hdist i l le_rfl (by rw [hm1]; omega) (by omega) (by rw [hm1]; omega) (by omega)
    have hkey : ∀ (b0 : Bool) (isp2 : Int),
        (∀ s : Nat, (∀ k : Int, i ≤ k → k < i + ((m + 1 : Nat) : Int) → s ≠ (ptab t k).ch) →
          (scanLoop t phalf m (i + 1) (p + (ptab t i).p) isp2
            (appendBit codes (ptab t i).ch b0)).2.2 s = codes s) ∧
        (∀ k : Int, i ≤ k → k < i + ((m + 1 : Nat) : Int) → ∃ b : Bool,
          (scanLoop t phalf m (i + 1) (p + (ptab t i).p) isp2
            (appendBit codes (ptab t i).ch b0)).2.2 (ptab t k).ch
            = codes (ptab t k).ch ++ [b]) := by
      intro b0 isp2
      obtain ⟨hfr, hob⟩ := ih (i + 1) (p + (ptab t i).p) isp2
        (appendBit codes (ptab t i).ch b0) hdist2
      constructor
      · intro s hs
        rw [hfr s (fun k hk1 hk2 => hs k (by omega) (by rw [hm1]; omega))]
        exact appendBit_ne _ _ _ (hs i le_rfl (by rw [hm1]; omega))
      · intro k hk1 hk2
        rw [hm1] at hk2
        rcases eq_or_lt_of_le hk1 with hk | hk
        · refine ⟨b0, ?_⟩
          rw [← hk]
          rw [hfr _ (fun l hl1 hl2 => hfresh l hl1 hl2)]
          exact appendBit_self _ _ _
        · obtain ⟨b, hb⟩ := hob k (by omega) (by omega)
          refine ⟨b, ?_⟩
          rw [hb, appendBit_ne _ _ _
            (hdist k i (by omega) (by rw [hm1]; omega) le_rfl (by rw [hm1]; omega) (by omega))]
    by_cases hstep : p + (ptab t i).p ≤ phalf
    · rw [scanLoop_step_le hstep]
      exact hkey false isp
    · rw [scanLoop_step_gt hstep]
      exact hkey true (if isp < 0 then i else isp)

/-! Concrete evaluations (rational arithmetic is resolved by `norm_num`). -/

theorem tbl_ab : buildPTable [97, 98] = [⟨97, 1/2⟩, ⟨98, 1/2⟩] := by
  have h1 : sortedKeys [97, 98] = [97, 98] := by decide
  rw [buildPTable, h1]
  norm_num [List.insertionSort, List.orderedInsert, pgeProb]

theorem tbl_z : buildPTable [122, 122] = [⟨122, 1⟩] := by
  have h1 : sortedKeys [122, 122] = [122] := by decide
  rw [buildPTable, h1]
  norm_num [List.insertionSort, List.orderedInsert, pgeProb]

theorem tbl_c5 : buildPTable [97, 97, 97, 97, 98, 99] = [⟨97, 2/3⟩, ⟨98, 1/6⟩, ⟨99, 1/6⟩] := by
  have h1 : sortedKeys [97, 97, 97, 97, 98, 99] = [97, 98, 99] := by decide
  rw [buildPTable, h1]
  norm_num [List.insertionSort, List.orderedInsert, pgeProb]

theorem enc_ab :
    Encode 2 [97, 98] = some ⟨[(97, 1/2, [false]), (98, 1/2, [true])], [false, true]⟩ := by
  simp only [Encode]
  rw [tbl_ab]
  rfl

theorem enc_z : Encode 1 [122, 122] = some ⟨[(122, 1, [])], []⟩ := by
  simp only [Encode]
  rw [tbl_z]
  rfl

theorem enc_ab2 :
    encShannon (buildPTable [97, 98]) 2 0 (((buildPTable [97, 98]).length : Int) - 1)
      (fun _ => []) = some (appendBit (appendBit (fun _ => []) 97 false) 98 true) := by
  rw [tbl_ab]
  rfl

theorem bit_c5 : specBit [(⟨97, 2/3⟩ : PNode), ⟨98, 1/6⟩, ⟨99, 1/6⟩] 0 2 0 = true := by
  rw [specBit, if_neg]
  show ¬ (sumRange [(⟨97, 2/3⟩ : PNode), ⟨98, 1/6⟩, ⟨99, 1/6⟩] 1 0
      ≤ sumRange [(⟨97, 2/3⟩ : PNode), ⟨98, 1/6⟩, ⟨99, 1/6⟩] 3 0 / 2)
  show ¬ ((2/3 + 0 : ℚ) ≤ (2/3 + (1/6 + (1/6 + 0))) / 2)
  norm_num

theorem fo_c5 :
    firstOne [(⟨97, 2/3⟩ : PNode), ⟨98, 1/6⟩, ⟨99, 1/6⟩] 0 2 ((2 : Int) + 1 - 0).toNat 0 = 0 := by
  show firstOne [(⟨97, 2/3⟩ : PNode), ⟨98, 1/6⟩, ⟨99, 1/6⟩] 0 2 (2 + 1) 0 = 0
  rw [firstOne, bit_c5]
  simp

theorem scan_c5 : (scanLoop [(⟨97, 2/3⟩ : PNode), ⟨98, 1/6⟩, ⟨99, 1/6⟩]
    (sumRange [(⟨97, 2/3⟩ : PNode), ⟨98, 1/6⟩, ⟨99, 1/6⟩] ((2 : Int) + 1 - 0).toNat 0 / 2)
    ((2 : Int) + 1 - 0).toNat 0 0 (-1) (fun _ => [])).2.1 = 0 := by
  have hs := scanLoop_spec [(⟨97, 2/3⟩ : PNode), ⟨98, 1/6⟩, ⟨99, 1/6⟩] 0 2 (by omega)
    ((2 : Int) + 1 - 0).toNat 0 (-1) (fun _ => []) le_rfl (Or.inl rfl)
  rw [show ((0 : Int) - 0).toNat = 0 from rfl] at hs
  rw [show sumRange [(⟨97, 2/3⟩ : PNode), ⟨98, 1/6⟩, ⟨99, 1/6⟩] 0 0 = 0 from rfl] at hs
  rw [show runSum [(⟨97, 2/3⟩ : PNode), ⟨98, 1/6⟩, ⟨99, 1/6⟩] 0 2
      = sumRange [(⟨97, 2/3⟩ : PNode), ⟨98, 1/6⟩, ⟨99, 1/6⟩] ((2 : Int) + 1 - 0).toNat 0
      from rfl] at hs
  rw [hs]
  rw [if_pos (by omega : (-1 : Int) < 0), fo_c5]

/-! Claim theorems. -/

/-- Claim C1 (amended): for every byte sequence with at least two distinct
symbols, whenever `Encode` terminates and produces an artifact, decoding that
artifact yields exactly the original sequence. -/
theorem c1_round_trip (fuel : Nat) (S : List Nat) (a : Artifact)
    (h2 : 2 ≤ (sortedKeys S).length) (henc : Encode fuel S = some a) :
    Decode a = S :=
  Encode_Decode_round fuel S a h2 henc

/-- Witness for C1: the input `[97, 98]` encodes with fuel 2 to the displayed
artifact, and decoding it returns `[97, 98]`. -/
theorem c1_round_trip_witness :
    Decode ⟨[(97, 1/2, [false]), (98, 1/2, [true])], [false, true]⟩ = [97, 98] :=
  c1_round_trip 2 [97, 98] ⟨[(97, 1/2, [false]), (98, 1/2, [true])], [false, true]⟩
    (by decide) enc_ab

/-- Counterexample to C1 as stated: the single-symbol input `[122, 122]`
encodes successfully (its only symbol gets the empty codeword and the
bitstream is empty), but decoding returns `[]`, not the input. -/
theorem c1_counterexample : (Encode 1 [122, 122]).map Decode ≠ some [122, 122] := by
  rw [enc_z]
  decide

/-- Claim C2: whenever the recursive code-tree builder, run on the sorted
probability table of an input with at least two distinct symbols, returns a
code table, no observed symbol's codeword is a proper prefix of another
observed symbol's codeword. -/
theorem c2_prefix_free (fuel : Nat) (S : List Nat) (codes : Nat → List Bool)
    (h2 : 2 ≤ (sortedKeys S).length)
    (henc : encShannon (buildPTable S) fuel 0 (((buildPTable S).length : Int) - 1)
      (fun _ => []) = some codes) :
    ∀ c cc, c ∈ sortedKeys S → cc ∈ sortedKeys S → c ≠ cc →
      ¬ (codes c <+: codes cc ∧ codes c ≠ codes cc) := by
  intro c cc hc hcc hne hcon
  exact (Encode_codes_facts h2 henc).2 c cc hc hcc hne hcon.1

/-- Witness for C2 at the two-symbol input `[97, 98]` with fuel 2. -/
theorem c2_prefix_free_witness :
    ¬ (appendBit (appendBit (fun _ => []) 97 false) 98 true 97 <+:
        appendBit (appendBit (fun _ => []) 97 false) 98 true 98 ∧
       appendBit (appendBit (fun _ => []) 97 false) 98 true 97 ≠
        appendBit (appendBit (fun _ => []) 97 false) 98 true 98) :=
  c2_prefix_free 2 [97, 98] (appendBit (appendBit (fun _ => []) 97 false) 98 true)
    (by decide) enc_ab2 97 98 (by decide) (by decide) (by decide)

/-- Claim C3: a call of the builder on a range of at least three elements
computes the range total, assigns each element the bit given by the
running-sum rule, splits at the first '1' index with fallback `lo + 1`, and
recurses on `[lo, split-1]` and `[split, hi]`; a call on exactly two elements
appends '0' to the first and '1' to the second element's codeword. -/
theorem c3_step (t : List PNode) (fuel : Nat) (lo hi : Int) (codes : Nat → List Bool)
    (hlo : 0 ≤ lo) :
    (2 ≤ hi - lo →
      encShannon t (fuel + 1) lo hi codes
        = (match encShannon t fuel lo (specSplit t lo hi - 1)
              (specAssign t lo hi (hi + 1 - lo).toNat lo codes) with
           | none => none
           | some c2 => encShannon t fuel (specSplit t lo hi) hi c2)) ∧
    (hi - lo = 1 →
      encShannon t (fuel + 1) lo hi codes
        = some (appendBit (appendBit codes (ptab t lo).ch false) (ptab t hi).ch true)) := by
  constructor
  · intro hge
    rw [encShannon_general (by omega) (by omega)]
    have hsl := scanLoop_spec t lo hi hlo (hi + 1 - lo).toNat lo (-1) codes le_rfl (Or.inl rfl)
    rw [show lo - lo = (0 : Int) from by omega] at hsl
    simp only [Int.toNat_zero, sumRange, runSum, Nat.zero_add] at hsl
    rw [hsl]
    rw [if_pos (show (-1 : Int) < 0 from by omega)]
    simp only [specSplit]
  · intro h1
    rw [encShannon_base2 h1]

/-- Witness for C3 at a concrete three-element table. -/
theorem c3_step_witness :
    encShannon [⟨97, 1/2⟩, ⟨98, 1/4⟩, ⟨99, 1/4⟩] 2 0 2 (fun _ => [])
      = (match encShannon [⟨97, 1/2⟩, ⟨98, 1/4⟩, ⟨99, 1/4⟩] 1 0
            (specSplit [⟨97, 1/2⟩, ⟨98, 1/4⟩, ⟨99, 1/4⟩] 0 2 - 1)
            (specAssign [⟨97, 1/2⟩, ⟨98, 1/4⟩, ⟨99, 1/4⟩] 0 2 ((2 : Int) + 1 - 0).toNat 0
              (fun _ => [])) with
         | none => none
         | some c2 => encShannon [⟨97, 1/2⟩, ⟨98, 1/4⟩, ⟨99, 1/4⟩] 1
            (specSplit [⟨97, 1/2⟩, ⟨98, 1/4⟩, ⟨99, 1/4⟩] 0 2) 2 c2) :=
  (c3_step [⟨97, 1/2⟩, ⟨98, 1/4⟩, ⟨99, 1/4⟩] 1 0 2 (fun _ => []) (by decide)).1 (by decide)

/-- Claim C4 (amended): when the alphabet has at least two symbols every
observed symbol's artifact row carries a non-empty codeword; when the alphabet
has exactly one symbol the single row carries the empty codeword (the source
has no special case for it). -/
theorem c4_codeword_len (fuel : Nat) (S : List Nat) (a : Artifact)
    (henc : Encode fuel S = some a) :
    (2 ≤ (sortedKeys S).length →
      ∀ s ∈ S, ∃ q w, (s, q, w) ∈ a.rows ∧ w ≠ ([] : List Bool)) ∧
    ((sortedKeys S).length = 1 → ∀ r ∈ a.rows, r.2.2 = ([] : List Bool)) := by
  obtain ⟨codes, henc2, hrows, hbits⟩ := Encode_elim henc
  constructor
  · intro h2 s hs
    obtain ⟨hne0, _⟩ := Encode_codes_facts h2 henc2
    have hs1 : s ∈ sortedKeys S := mem_sortedKeys.mpr hs
    have hs2 : s ∈ (buildPTable S).map PNode.ch := (buildPTable_map_ch S).mem_iff.mpr hs1
    obtain ⟨n, hn, rfl⟩ := List.mem_map.mp hs2
    refine ⟨n.p, codes n.ch, ?_, hne0 n.ch hs1⟩
    rw [hrows]
    exact List.mem_map.mpr ⟨n, hn, rfl⟩
  · intro h1 r hr
    have hlen : (buildPTable S).length = 1 := by rw [buildPTable_length]; exact h1
    rw [hlen] at henc2
    have henc3 : encShannon (buildPTable S) fuel 0 0 (fun _ => []) = some codes := by
      simpa using henc2
    cases fuel with
    | zero => exact absurd henc3 (by simp [encShannon])
    | succ m =>
      rw [encShannon_base1] at henc3
      obtain rfl := Option.some.inj henc3
      rw [hrows] at hr
      obtain ⟨n, hn, rfl⟩ := List.mem_map.mp hr
      rfl

/-- Witness for C4 at the two-symbol input `[97, 98]` with fuel 2. -/
theorem c4_codeword_len_witness :
    ∃ q w, ((97 : Nat), q, w) ∈
        (⟨[(97, 1/2, [false]), (98, 1/2, [true])], [false, true]⟩ : Artifact).rows ∧
      w ≠ ([] : List Bool) :=
  (c4_codeword_len 2 [97, 98] ⟨[(97, 1/2, [false]), (98, 1/2, [true])], [false, true]⟩
    enc_ab).1 (by decide) 97 (by decide)

/-- Counterexample to C4 as stated: for the single-symbol input `[122, 122]`
the artifact assigns symbol 122 the empty codeword. -/
theorem c4_counterexample : Encode 1 [122, 122] = some ⟨[(122, 1, [])], []⟩ :=
  enc_z

/-- Claim C5 is false of the code: on the input "aaaabc" the first symbol's
probability 2/3 exceeds half the range total, so the split index equals the
range start, and the builder recurses on the reversed range `(0, -1)`, which
never terminates; for every fuel bound the fuelled model returns `none` and no
artifact is ever produced. -/
theorem c5_nontermination : ∀ fuel : Nat, Encode fuel [97, 97, 97, 97, 98, 99] = none := by
  have htbl : buildPTable [97, 97, 97, 97, 98, 99]
      = [⟨97, 2/3⟩, ⟨98, 1/6⟩, ⟨99, 1/6⟩] := tbl_c5
  have henc : ∀ f : Nat,
      encShannon [(⟨97, 2/3⟩ : PNode), ⟨98, 1/6⟩, ⟨99, 1/6⟩] f 0 2 (fun _ => []) = none := by
    intro f
    cases f with
    | zero => rfl
    | succ m =>
      rw [encShannon_general (by omega) (by omega)]
      have hsc := scan_c5
      rw [hsc]
      rw [if_neg (by omega : ¬ (0 : Int) < 0)]
      rw [show (0 : Int) - 1 = -1 from by omega]
      rw [encShannon_neg _ m 0 (-1) _ (by omega)]
  intro fuel
  simp only [Encode]
  rw [htbl]
  have hlen : ((([(⟨97, 2/3⟩ : PNode), ⟨98, 1/6⟩, ⟨99, 1/6⟩] : List PNode).length : Int) - 1)
      = 2 := by simp
  rw [hlen, henc fuel]

/-- Claim C6 is false of the code: on empty input the table is empty and the
builder is called on the range `(0, -1)`, on which it never terminates; no
`EmptyInputError` exists in the source and no artifact is written. -/
theorem c6_empty_input : ∀ fuel : Nat, Encode fuel ([] : List Nat) = none := by
  intro fuel
  simp only [Encode]
  have htbl : buildPTable ([] : List Nat) = [] := rfl
  rw [htbl]
  have hlen : ((([] : List PNode).length : Int) - 1) = -1 := by simp
  rw [hlen, encShannon_neg _ fuel 0 (-1) _ (by omega)]

/-- Claim C7 (amended): when the bitstream is exhausted the decoder simply
stops: its output is the clean decode of some prefix of the bitstream and the
unmatched remainder is the final accumulator, which is discarded without any
error being raised. -/
theorem c7_silent_leftover (codes : List (Nat × List Bool)) (bits : List Bool) :
    ∃ k, k ≤ bits.length ∧
      decodeAcc codes [] bits = ((decodeAcc codes [] (List.take k bits)).1, List.drop k bits) ∧
      (decodeAcc codes [] (List.take k bits)).2 = [] := by
  rcases decode_discard codes bits [] with ⟨h1, h2⟩ | ⟨k, hk, htake, hdrop⟩
  · refine ⟨0, by omega, ?_, by simp [decodeAcc]⟩
    rw [List.take_zero, List.drop_zero]
    have hfst : (decodeAcc codes [] ([] : List Bool)).1 = [] := rfl
    apply Prod.ext
    · rw [h1, hfst]
    · rw [h2]
      simp
  · refine ⟨k, hk, ?_, ?_⟩
    · apply Prod.ext
      · rw [htake]
      · rw [hdrop]
    · rw [htake]

/-- Counterexample to C7 as stated: a bitstream exhausted with the non-empty,
non-matching accumulator `[false]` makes decode return normally — emitting
nothing and silently discarding the leftover — instead of failing. -/
theorem c7_counterexample :
    decodeAcc [(97, [false, false])] [] [false] = ([], [false]) ∧
    Decode ⟨[(97, 1, [false, false])], [false]⟩ = [] := by
  decide

/-- Claim C8 (amended): a call of the builder on a single-element range
appends no bit and returns the codeword table unchanged; a call on a
two-element range appends exactly one bit to each of the two elements, and the
centre-searching scan of a longer range appends exactly one bit to every
element of the range before the recursive calls. -/
theorem c8_one_bit_per_level (t : List PNode) (fuel : Nat) (li ri : Int)
    (codes : Nat → List Bool)
    (hdist : ∀ k l : Int, li ≤ k → k ≤ ri → li ≤ l → l ≤ ri → k ≠ l →
      (ptab t k).ch ≠ (ptab t l).ch) :
    (li = ri → encShannon t (fuel + 1) li ri codes = some codes) ∧
    (ri = li + 1 → ∀ k : Int, li ≤ k → k ≤ ri → ∃ b : Bool,
      appendBit (appendBit codes (ptab t li).ch false) (ptab t ri).ch true ((ptab t k).ch)
        = codes ((ptab t k).ch) ++ [b]) ∧
    (li + 2 ≤ ri → ∀ k : Int, li ≤ k → k ≤ ri → ∃ b : Bool,
      (scanLoop t (sumRange t (ri + 1 - li).toNat li / 2) (ri + 1 - li).toNat li 0 (-1)
        codes).2.2 ((ptab t k).ch) = codes ((ptab t k).ch) ++ [b]) := by
  refine ⟨?_, ?_, ?_⟩
  · intro h
    rw [h]
    exact encShannon_base1
  · intro h1 k hk1 hk2
    have hne : (ptab t li).ch ≠ (ptab t ri).ch :=
      hdist li ri le_rfl (by omega) (by omega) le_rfl (by omega)
    rcases (by omega : li = k ∨ ri = k) with hk | hk
    · refine ⟨false, ?_⟩
      rw [← hk, appendBit_ne _ _ _ hne, appendBit_self]
    · refine ⟨true, ?_⟩
      rw [← hk, appendBit_self, appendBit_ne _ _ _ hne.symm]
  · intro h2 k hk1 hk2
    have hn : (((ri + 1 - li).toNat : Nat) : Int) = ri + 1 - li := by omega
    obtain ⟨_, hob⟩ := scanLoop_one_bit t (sumRange t (ri + 1 - li).toNat li / 2)
      (ri + 1 - li).toNat li 0 (-1) codes
      (fun a b ha1 ha2 hb1 hb2 hab => hdist a b ha1 (by omega) hb1 (by omega) hab)
    exact hob k hk1 (by omega)

/-- Witness for C8: the two-element special case at a concrete table, element
at index 0 receives exactly one bit. -/
theorem c8_one_bit_witness :
    ∃ b : Bool, appendBit (appendBit (fun _ => ([] : List Bool))
        (ptab [⟨97, 1/2⟩, ⟨98, 1/2⟩] 0).ch false)
        (ptab [⟨97, 1/2⟩, ⟨98, 1/2⟩] 1).ch true ((ptab [⟨97, 1/2⟩, ⟨98, 1/2⟩] 0).ch)
      = (fun _ => ([] : List Bool)) ((ptab [⟨97, 1/2⟩, ⟨98, 1/2⟩] 0).ch) ++ [b] :=
  (c8_one_bit_per_level [⟨97, 1/2⟩, ⟨98, 1/2⟩] 0 0 1 (fun _ => [])
    (by
      intro k l hk1 hk2 hl1 hl2 hkl
      interval_cases k <;> interval_cases l <;> first | omega | decide)).2.1
    rfl 0 (by omega) (by omega)

/-- Counterexample to C8 as stated: a call on the single-element range
`(0, 0)` appends no bit, so the element's codeword does not grow by one. -/
theorem c8_counterexample :
    (encShannon [⟨97, 1⟩] 1 0 0 (fun _ => [])).map (fun c => (c 97).length) ≠ some 1 := by
  decide

/-- Claim C9: the probability table built by Encode is sorted by decreasing
probability: an earlier entry's probability is at least a later entry's. -/
theorem c9_sorted (S : List Nat) (i j : Nat) (hij : i < j) (hj : j < (buildPTable S).length) :
    ((buildPTable S).get ⟨j, hj⟩).p ≤ ((buildPTable S).get ⟨i, Nat.lt_trans hij hj⟩).p := by
  have hs : List.Sorted pgeProb (buildPTable S) := List.sorted_insertionSort pgeProb _
  exact hs.rel_get_of_lt hij

/-- Witness for C9 at the input `[97, 98]`. -/
theorem c9_sorted_witness :
    ((buildPTable [97, 98]).get ⟨1, by rw [tbl_ab]; decide⟩).p
      ≤ ((buildPTable [97, 98]).get ⟨0, by rw [tbl_ab]; decide⟩).p :=
  c9_sorted [97, 98] 0 1 (by decide) (by rw [tbl_ab]; decide)

/-- Claim C10: for any code table of non-empty codewords with distinct symbols
(the shape of the C++ map), the concatenated codewords of the emitted symbols
followed by the leftover accumulator reproduce the bitstream; each appended
bit emits at most one symbol, and an emission resets the accumulator. -/
theorem c10_decode_sound (codes : List (Nat × List Bool)) (bits : List Bool)
    (hne : ∀ e ∈ codes, e.2 ≠ ([] : List Bool))
    (hnd : (codes.map Prod.fst).Nodup) :
    ((decodeAcc codes [] bits).1.map (cwOf codes)).flatten ++ (decodeAcc codes [] bits).2
        = bits ∧
    (decodeAcc codes [] bits).1.length ≤ bits.length ∧
    (∀ (a : List Bool) (b : Bool), (decodeStep codes (a ++ [b])).1.length ≤ 1 ∧
      ((decodeStep codes (a ++ [b])).1 ≠ [] → (decodeStep codes (a ++ [b])).2 = [])) := by
  refine ⟨?_, (decodeAcc_inv codes hne hnd bits []).2, ?_⟩
  · simpa using (decodeAcc_inv codes hne hnd bits []).1
  · intro a b
    rcases decodeStep_char codes hne (a ++ [b]) with ⟨hstep, _⟩ | ⟨s, hstep, _⟩
    · rw [hstep]
      exact ⟨by simp, by simp⟩
    · rw [hstep]
      exact ⟨by simp, fun _ => rfl⟩

/-- Witness for C10 at a concrete two-symbol table and three-bit stream. -/
theorem c10_decode_sound_witness :
    ((decodeAcc [(97, [false]), (98, [true])] [] [false, true, false]).1.map
        (cwOf [(97, [false]), (98, [true])])).flatten
      ++ (decodeAcc [(97, [false]), (98, [true])] [] [false, true, false]).2
      = [false, true, false] :=
  (c10_decode_sound [(97, [false]), (98, [true])] [false, true, false]
    (by decide) (by decide)).1

end ShannonFano
